import Mathlib

/-!
Verification of the browser-etl pipeline engine against its specification.

The development shallowly embeds the core of the library:
* `ETLPipeline` (src/core/etl.ts): step orchestration, result caching,
  run-result assembly;
* `JoinTransformer` (src/transformers/join.ts): nested and parallel joins;
* `EnrichTransformer` (src/transformers/enrich.ts): batched enrichment;
* `StreamProcessor` (src/utils/stream.ts): chunked processing;
* `ErrorRecovery` (src/utils/error-recovery.ts): bounded retries.

JavaScript runtime values are modelled by the inductive type `Value`
(numbers restricted to integers; no NaN).  Promises are collapsed:
an asynchronous operation that may reject is a function into
`Except String Value`.  Wall-clock instants are natural numbers supplied
to `run` (the code reads `Date.now()`); durations reported in results are
omitted, being real-time quantities.  The `for (let i = 0; ...)` loops of
the enrich transformer and the stream processor are embedded with an
explicit fuel parameter so that their (non-)termination is expressible:
`none` means the fuel was exhausted before the loop condition failed.
-/

mutual

inductive Value where
  | vNull
  | vBool (b : Bool)
  | vNum (n : Int)
  | vStr (s : String)
  | vArr (xs : ValueList)
  | vObj (fs : FieldList)

inductive ValueList where
  | nil
  | cons (v : Value) (tl : ValueList)

inductive FieldList where
  | nil
  | cons (k : String) (v : Value) (tl : FieldList)

end

/-- Conversion from a Lean list of values to the mutual list type. -/
def ValueList.ofList : List Value → ValueList
  | [] => .nil
  | v :: tl => .cons v (ValueList.ofList tl)

/-- Conversion from the mutual list type to a Lean list. -/
def ValueList.toList : ValueList → List Value
  | .nil => []
  | .cons v tl => v :: ValueList.toList tl

/-- Number of elements of a `ValueList`. -/
def ValueList.length : ValueList → Nat
  | .nil => 0
  | .cons _ tl => 1 + ValueList.length tl

/-- Element at a position of a `ValueList`, JS `arr[i]` on in-range indices. -/
def ValueList.get? : ValueList → Nat → Option Value
  | .nil, _ => none
  | .cons v _, 0 => some v
  | .cons _ tl, n + 1 => ValueList.get? tl n

/-- Field lookup on an object field list, JS property access `obj[k]`. -/
def FieldList.lookup : FieldList → String → Option Value
  | .nil, _ => none
  | .cons k v tl, k2 => if k = k2 then some v else FieldList.lookup tl k2

/-- Overwrite-or-append a field, matching JS property assignment and the
ordering behaviour of object spread (existing keys keep their position). -/
def FieldList.set : FieldList → String → Value → FieldList
  | .nil, k, v => .cons k v .nil
  | .cons k2 v2 tl, k, v =>
    if k2 = k then .cons k v tl else .cons k2 v2 (FieldList.set tl k v)

mutual

/-- Structural equality test on values.  JS `Map` keys are compared with
SameValueZero; for the primitive keys the join code produces this agrees
with structural equality, which is used here throughout. -/
def valueBeq : Value → Value → Bool
  | .vNull, .vNull => true
  | .vBool a, .vBool b => a == b
  | .vNum a, .vNum b => a == b
  | .vStr a, .vStr b => a == b
  | .vArr xs, .vArr ys => vlistBeq xs ys
  | .vObj fs, .vObj gs => fieldsBeq fs gs
  | _, _ => false

/-- Pointwise `valueBeq` on value lists. -/
def vlistBeq : ValueList → ValueList → Bool
  | .nil, .nil => true
  | .cons x xs, .cons y ys => valueBeq x y && vlistBeq xs ys
  | _, _ => false

/-- Pointwise `valueBeq` on field lists. -/
def fieldsBeq : FieldList → FieldList → Bool
  | .nil, .nil => true
  | .cons k v tl, .cons k2 v2 tl2 => k == k2 && valueBeq v v2 && fieldsBeq tl tl2
  | _, _ => false

end

/-- JS truthiness of a modelled value (numbers are integral, so the only
falsy number is 0; NaN is outside the model). -/
def truthy : Value → Bool
  | .vNull => false
  | .vBool b => b
  | .vNum n => n != 0
  | .vStr s => s != ""
  | .vArr _ => true
  | .vObj _ => true

/-- Escaping of quote and backslash inside a JSON string literal. -/
def jsonEscape : List Char → String
  | [] => ""
  | c :: tl =>
    (if c = '\x22' then "\\\x22" else if c = '\\' then "\\\\" else String.singleton c)
      ++ jsonEscape tl

mutual

/-- Rendering of a value as by `JSON.stringify`, used only to build cache
keys.  String escaping is restricted to the quote and backslash characters;
the cache-key claims depend only on equal configs yielding equal keys. -/
def jsonStringify : Value → String
  | .vNull => "null"
  | .vBool true => "true"
  | .vBool false => "false"
  | .vNum n => toString n
  | .vStr s => "\x22" ++ jsonEscape s.data ++ "\x22"
  | .vArr xs => "[" ++ jsonList xs ++ "]"
  | .vObj fs => "\x7b" ++ jsonFields fs ++ "\x7d"

/-- Comma-separated rendering of array elements. -/
def jsonList : ValueList → String
  | .nil => ""
  | .cons v .nil => jsonStringify v
  | .cons v tl => jsonStringify v ++ "," ++ jsonList tl

/-- Comma-separated rendering of object fields. -/
def jsonFields : FieldList → String
  | .nil => ""
  | .cons k v .nil => "\x22" ++ k ++ "\x22:" ++ jsonStringify v
  | .cons k v tl => "\x22" ++ k ++ "\x22:" ++ jsonStringify v ++ "," ++ jsonFields tl

end

/-! ## Pipeline orchestrator (src/core/etl.ts) -/

/-- Step kinds, the `type` field of `ETLStep`. -/
inductive StepType where
  | extract
  | transform
  | load
deriving DecidableEq

/-- Rendering of a step type into its cache-key prefix segment. -/
def StepType.str : StepType → String
  | .extract => "extract"
  | .transform => "transform"
  | .load => "load"

/-- One pipeline step (`ETLStep` in src/types).  The `optional` field is
`optional?: boolean` in the source; an absent flag is falsy, modelled as
`false`. -/
structure ETLStep where
  type : StepType
  config : Value
  name : String
  optional : Bool := false

/-- Pipeline configuration (`ETLConfig`), with the defaults installed by the
`ETLPipeline` constructor.  Durations are in milliseconds. -/
structure ETLConfig where
  enableCache : Bool := true
  cacheDuration : Nat := 300000
  enableParallel : Bool := true
  maxParallel : Nat := 10
  enableStreaming : Bool := false
  batchSize : Int := 1000
  enableErrorRecovery : Bool := true
  maxRetries : Nat := 3

/-- Registered capabilities.  An extractor takes the step config; a
transformer and a loader take the carried value and the step config.
Promise rejection is the `Except.error` case. -/
structure Env where
  extractors : List (String × (Value → Except String Value))
  transformers : List (String × (Value → Value → Except String Value))
  loaders : List (String × (Value → Value → Except String Value))

/-- First-match lookup in a string-keyed association list (a JS `Map` whose
`set` overwrites in place, so keys are unique). -/
def lookupStr {α : Type} : List (String × α) → String → Option α
  | [], _ => none
  | (k, v) :: tl, key => if k = key then some v else lookupStr tl key

/-- Overwrite-or-append in a string-keyed association list, JS `Map.set`. -/
def setStr {α : Type} : List (String × α) → String → α → List (String × α)
  | [], key, v => [(key, v)]
  | (k, v2) :: tl, key, v =>
    if k = key then (key, v) :: tl else (k, v2) :: setStr tl key v

/-- Removal from a string-keyed association list, JS `Map.delete`. -/
def eraseStr {α : Type} : List (String × α) → String → List (String × α)
  | [], _ => []
  | (k, v) :: tl, key => if k = key then tl else (k, v) :: eraseStr tl key

/-- The pipeline's two cache maps (`cache` and `cacheTimestamps`). -/
structure CacheState where
  cache : List (String × Value)
  timestamps : List (String × Nat)

/-- The empty cache of a fresh pipeline. -/
def emptyCache : CacheState := ⟨[], []⟩

/-- Observable happenings during a run, recorded for the statements only:
an extractor invocation, or an extract step answered from the cache. -/
inductive PipeEvent where
  | extractCall (name : String)
  | cacheHit (key : String)
deriving DecidableEq

/-- Cache key of a step, `generateCacheKey`:
`type:name:JSON.stringify(config)`. -/
def generateCacheKey (step : ETLStep) : String :=
  step.type.str ++ ":" ++ step.name ++ ":" ++ jsonStringify step.config

/-- Lookup with lazy expiry, `getCachedData`.  The guard
`if (!timestamp) return null` fires on an absent timestamp and on the
falsy timestamp 0, both reported absent without eviction.  An entry older
than `cacheDuration` is evicted and reported absent.  The source returns
`this.cache.get(key) || null`, so a falsy stored value is reported absent
as well (without eviction). -/
def getCachedData (st : CacheState) (cacheDuration : Nat) (key : String)
    (now : Nat) : Option Value × CacheState :=
  match lookupStr st.timestamps key with
  | none => (none, st)
  | some ts =>
    if ts = 0 then (none, st)
    else if now - ts > cacheDuration then
      (none, ⟨eraseStr st.cache key, eraseStr st.timestamps key⟩)
    else
      match lookupStr st.cache key with
      | some v => (if truthy v then some v else none, st)
      | none => (none, st)

/-- Store a value and its timestamp, `setCachedData`. -/
def setCachedData (st : CacheState) (key : String) (v : Value) (now : Nat) :
    CacheState :=
  ⟨setStr st.cache key v, setStr st.timestamps key now⟩

/-- One extract step, `executeExtractStep`: resolve the extractor (missing
name throws), consult the cache when enabled, otherwise invoke the
extractor and store its result when caching is enabled. -/
def executeExtractStep (env : Env) (cfg : ETLConfig) (now : Nat)
    (step : ETLStep) (st : CacheState) :
    Except String Value × CacheState × List PipeEvent :=
  match lookupStr env.extractors step.name with
  | none => (.error ("Extractor " ++ step.name ++ " not found"), st, [])
  | some ex =>
    let key := generateCacheKey step
    let checked := if cfg.enableCache then getCachedData st cfg.cacheDuration key now
                   else (none, st)
    match checked.1 with
    | some v => (.ok v, checked.2, [.cacheHit key])
    | none =>
      match ex step.config with
      | .error e => (.error e, checked.2, [.extractCall step.name])
      | .ok data =>
        let st2 := if cfg.enableCache then setCachedData checked.2 key data now
                   else checked.2
        (.ok data, st2, [.extractCall step.name])

/-- One step of any kind; yields the new carried value (a load step keeps
the carried value), the new cache state and the events.  Transformer and
loader resolution failures throw as in `executeTransformStep` /
`executeLoadStep`. -/
def executeStep (env : Env) (cfg : ETLConfig) (now : Nat) (step : ETLStep)
    (cur : Value) (st : CacheState) :
    Except String Value × CacheState × List PipeEvent :=
  match step.type with
  | .extract => executeExtractStep env cfg now step st
  | .transform =>
    match lookupStr env.transformers step.name with
    | none => (.error ("Transformer " ++ step.name ++ " not found"), st, [])
    | some tr => (tr cur step.config, st, [])
  | .load =>
    match lookupStr env.loaders step.name with
    | none => (.error ("Loader " ++ step.name ++ " not found"), st, [])
    | some ld => ((ld cur step.config).map (fun _ => cur), st, [])

/-- Per-step entry of `RunResult.metadata.steps` (durations omitted: they
are wall-clock readings). -/
structure StepResult where
  name : String
  success : Bool
  error : Option String
deriving DecidableEq

/-- Mutable locals of `run()`: the carried value (`currentData`, initially
`null`), the cache, the per-step entries, and the two counters `cacheHits`
and `cacheMisses` declared at the top of `run()`.  The event list is
instrumentation for the statements. -/
structure RunAcc where
  currentData : Value
  cacheSt : CacheState
  stepResults : List StepResult
  cacheHits : Nat
  cacheMisses : Nat
  events : List PipeEvent

/-- The step loop of `run()`: execute steps in order; a failing step is
recorded and, unless `optional`, aborts the loop with its error.  The
source never modifies `cacheHits` / `cacheMisses` after initialisation,
and neither does this loop. -/
def runSteps (env : Env) (cfg : ETLConfig) (now : Nat) :
    List ETLStep → RunAcc → RunAcc × Option String
  | [], acc => (acc, none)
  | step :: rest, acc =>
    let r := executeStep env cfg now step acc.currentData acc.cacheSt
    match r.1 with
    | .ok newData =>
      runSteps env cfg now rest
        { currentData := newData
          cacheSt := r.2.1
          stepResults := acc.stepResults ++ [⟨step.name, true, none⟩]
          cacheHits := acc.cacheHits
          cacheMisses := acc.cacheMisses
          events := acc.events ++ r.2.2 }
    | .error e =>
      let acc2 : RunAcc :=
        { currentData := acc.currentData
          cacheSt := r.2.1
          stepResults := acc.stepResults ++ [⟨step.name, false, some e⟩]
          cacheHits := acc.cacheHits
          cacheMisses := acc.cacheMisses
          events := acc.events ++ r.2.2 }
      if step.optional then runSteps env cfg now rest acc2
      else (acc2, some e)

/-- The run result (`ETLResult`), without the wall-clock durations. -/
structure ETLResult where
  data : Value
  steps : List StepResult
  cacheHits : Nat
  cacheMisses : Nat
  success : Bool
  error : Option String

/-- Full `run()` at instant `now`, starting from cache state `st0` (the
state a previous run left behind, or `emptyCache` for a fresh pipeline).
Returns the result together with the final cache state and the recorded
events. -/
def runP (env : Env) (cfg : ETLConfig) (now : Nat) (steps : List ETLStep)
    (st0 : CacheState) : ETLResult × CacheState × List PipeEvent :=
  let start : RunAcc := ⟨.vNull, st0, [], 0, 0, []⟩
  let r := runSteps env cfg now steps start
  match r.2 with
  | none =>
    (⟨r.1.currentData, r.1.stepResults, r.1.cacheHits, r.1.cacheMisses,
      true, none⟩, r.1.cacheSt, r.1.events)
  | some e =>
    (⟨r.1.currentData, r.1.stepResults, r.1.cacheHits, r.1.cacheMisses,
      false, some e⟩, r.1.cacheSt, r.1.events)

/-! ## Join transformer (src/transformers/join.ts) -/

/-- Property access `current[key]` on a value, as used by `getNestedValue`:
objects by field name; arrays by `length` or a decimal element index;
strings by `length`; everything else has no properties in the model. -/
def indexVal : Value → String → Option Value
  | .vObj fs, k => fs.lookup k
  | .vArr xs, k =>
    if k = "length" then some (.vNum xs.length)
    else match k.toNat? with
      | some n => xs.get? n
      | none => none
  | .vStr s, k => if k = "length" then some (.vNum s.length) else none
  | _, _ => none

/-- One reduction step of `getNestedValue`:
`current && current[key] !== undefined ? current[key] : undefined`
(an absent `current`, and a falsy `current`, both yield absence). -/
def nestedStep (current : Option Value) (key : String) : Option Value :=
  match current with
  | none => none
  | some c => if truthy c then indexVal c key else none

/-- Split of a character list at a separator, the semantics of JS
`String.prototype.split` with a one-character separator: the empty string
splits to `[""]`, separators at the ends produce empty segments. -/
def splitCharList (sep : Char) : List Char → List (List Char)
  | [] => [[]]
  | c :: tl =>
    match splitCharList sep tl with
    | [] => if c = sep then [[], [c]] else [[c]]
    | h :: t => if c = sep then [] :: h :: t else (c :: h) :: t

/-- `path.split('.')` as a list of strings. -/
def splitDot (path : String) : List String :=
  (splitCharList '.' path.data).map (fun cs => String.mk cs)

/-- Dot-path resolution, `getNestedValue(obj, path)`:
`path.split('.').reduce(..., obj)`. -/
def getNestedValue (obj : Value) (path : String) : Option Value :=
  (splitDot path).foldl nestedStep (some obj)

/-- First-match lookup in a value-keyed association list (`Map.get`). -/
def getVAssoc : List (Value × Value) → Value → Option Value
  | [], _ => none
  | (k, v) :: tl, key => if valueBeq k key then some v else getVAssoc tl key

/-- Overwrite-or-append in a value-keyed association list (`Map.set`,
last write wins, original insertion position kept). -/
def setVAssoc : List (Value × Value) → Value → Value → List (Value × Value)
  | [], key, v => [(key, v)]
  | (k, v2) :: tl, key, v =>
    if valueBeq k key then (k, v) :: tl else (k, v2) :: setVAssoc tl key v

/-- Index of a record list by the resolved key, as built by the `forEach`
loops of `nestedJoin` and `parallelJoin`: records whose key path does not
resolve are skipped. -/
def buildJoinMap (items : List Value) (key : String) : List (Value × Value) :=
  items.foldl
    (fun m item =>
      match getNestedValue item key with
      | some kv => setVAssoc m kv item
      | none => m)
    []

/-- Linearisation of a `FieldList` into a Lean list of pairs. -/
def spreadFieldsList : FieldList → List (String × Value)
  | .nil => []
  | .cons k v tl => (k, v) :: spreadFieldsList tl

/-- Index-keyed entries of a spread array. -/
def spreadArr (i : Nat) : ValueList → List (String × Value)
  | .nil => []
  | .cons v tl => (toString i, v) :: spreadArr (i + 1) tl

/-- Fields contributed by one operand of an object spread: objects spread
their fields; arrays and strings spread index-keyed entries; other values
contribute nothing. -/
def spreadFieldsOf : Option Value → List (String × Value)
  | some (.vObj fs) => spreadFieldsList fs
  | some (.vArr xs) => spreadArr 0 xs
  | some (.vStr s) =>
    (s.data.enum).map (fun ci => (toString ci.1, Value.vStr (String.singleton ci.2)))
  | _ => []

/-- The object literal `{...a, ...b}` on two possibly-absent operands:
fields of `a` then fields of `b`, later keys overwriting earlier ones in
place. -/
def objSpread2 (a b : Option Value) : Value :=
  .vObj ((spreadFieldsOf a ++ spreadFieldsOf b).foldl
    (fun fs kv => fs.set kv.1 kv.2) .nil)

/-- Custom combiner type: `joinFn(left, right)` where either side may be
`undefined` (in nested mode the left side is always present). -/
def JoinFn : Type := Option Value → Option Value → Value

/-- Core of `nestedJoin` on record lists: index the right side by key, then
map over the left side; a left record whose key is found is combined
(custom `joinFn`, or shallow merge on a truthy found record), every other
left record is emitted unchanged. -/
def nestedJoinList (leftData rightData : List Value) (key : String)
    (joinFn : Option JoinFn) : List Value :=
  let rightMap := buildJoinMap rightData key
  leftData.map (fun leftItem =>
    let rightItem :=
      match getNestedValue leftItem key with
      | some kv => getVAssoc rightMap kv
      | none => none
    match joinFn with
    | some f => f (some leftItem) rightItem
    | none =>
      match rightItem with
      | some r => if truthy r then objSpread2 (some leftItem) (some r) else leftItem
      | none => leftItem)

/-- `nestedJoin` with the array check (`Both datasets must be arrays`). -/
def nestedJoin (leftData rightData : Value) (key : String)
    (joinFn : Option JoinFn) : Except String Value :=
  match leftData, rightData with
  | .vArr ls, .vArr rs =>
    .ok (.vArr (ValueList.ofList (nestedJoinList ls.toList rs.toList key joinFn)))
  | _, _ => .error "Both datasets must be arrays for joining"

/-- Union of the key lists of the two maps in first-occurrence order
(`new Set([...leftMap.keys(), ...rightMap.keys()])`). -/
def dedupKeys (keys : List Value) : List Value :=
  keys.foldl (fun acc k => if acc.any (fun k2 => valueBeq k2 k) then acc else acc ++ [k]) []

/-- Core of `parallelJoin` on record lists: index both sides by key, take
the union of the keys, and emit one combined record per key. -/
def parallelJoinList (leftData rightData : List Value) (key : String)
    (joinFn : Option JoinFn) : List Value :=
  let leftMap := buildJoinMap leftData key
  let rightMap := buildJoinMap rightData key
  let allKeys := dedupKeys (leftMap.map Prod.fst ++ rightMap.map Prod.fst)
  allKeys.map (fun kv =>
    let leftItem := getVAssoc leftMap kv
    let rightItem := getVAssoc rightMap kv
    match joinFn with
    | some f => f leftItem rightItem
    | none => objSpread2 leftItem rightItem)

/-- `parallelJoin` with the array check. -/
def parallelJoin (leftData rightData : Value) (key : String)
    (joinFn : Option JoinFn) : Except String Value :=
  match leftData, rightData with
  | .vArr ls, .vArr rs =>
    .ok (.vArr (ValueList.ofList (parallelJoinList ls.toList rs.toList key joinFn)))
  | _, _ => .error "Both datasets must be arrays for joining"

/-! ## Enrich transformer (src/transformers/enrich.ts) and
stream processor (src/utils/stream.ts) -/

/-- Clamped index of `Array.prototype.slice`: a negative argument counts
from the end, and both arguments are clamped into `[0, length]`. -/
def jsSliceIdx (len : Nat) (x : Int) : Nat :=
  if x < 0 then ((len : Int) + x).toNat else min x.toNat len

/-- `data.slice(start, fin)` with full JS index semantics. -/
def jsSlice {α : Type} (xs : List α) (start fin : Int) : List α :=
  (xs.take (jsSliceIdx xs.length fin)).drop (jsSliceIdx xs.length start)

/-- The chunking loop of `enrichParallel`:
`for (let i = 0; i < data.length; i += batchSize)`, each iteration mapping
`fn` over `data.slice(i, i + batchSize)` and appending the results.  The
loop is embedded with a fuel parameter; `none` means the fuel ran out with
the loop condition still true. -/
def enrichLoop (data : List Value) (fn : Value → Value) (bs : Int) :
    Nat → Int → List Value → Option (List Value)
  | 0, i, results => if i < (data.length : Int) then none else some results
  | fuel + 1, i, results =>
    if i < (data.length : Int) then
      enrichLoop data fn bs fuel (i + bs)
        (results ++ (jsSlice data i (i + bs)).map fn)
    else some results

/-- `enrichParallel(data, fn, batchSize)` with fuel `data.length`, which is
enough for every batch size of at least 1. -/
def enrichParallel (data : List Value) (fn : Value → Value) (bs : Int) :
    Option (List Value) :=
  enrichLoop data fn bs data.length 0 []

/-- `enrichSequential(data, fn)`: one awaited call per item, results pushed
in order. -/
def enrichSequential (data : List Value) (fn : Value → Value) : List Value :=
  data.foldl (fun results item => results ++ [fn item]) []

/-- Normalisation of a batch result into the accumulated array: an array
result is spread element-wise, any other value is pushed whole. -/
def normalizeResult : Value → List Value
  | .vArr xs => xs.toList
  | v => [v]

/-- The chunk loop of `StreamProcessor.process` with streaming enabled:
`for (let i = 0; i < data.length; i += batchSize)`; each chunk is run
through the processor, a successful result is normalised and appended, a
throwing (or timed-out) chunk is skipped.  Fuel as in `enrichLoop`. -/
def streamLoop (data : List Value) (proc : List Value → Except String Value)
    (bs : Int) : Nat → Int → List Value → Option (List Value)
  | 0, i, results => if i < (data.length : Int) then none else some results
  | fuel + 1, i, results =>
    if i < (data.length : Int) then
      let batch := jsSlice data i (i + bs)
      let results2 :=
        match proc batch with
        | .ok r => results ++ normalizeResult r
        | .error _ => results
      streamLoop data proc bs fuel (i + bs) results2
    else some results

/-- `StreamProcessor.process` with streaming enabled, fuel `data.length`. -/
def streamProcess (data : List Value) (proc : List Value → Except String Value)
    (bs : Int) : Option (List Value) :=
  streamLoop data proc bs data.length 0 []

/-- Specification-side partition of a list into consecutive chunks of size
`b` (the last chunk possibly smaller), for comparison with the loops. -/
def chunksOf {α : Type} (b : Nat) : List α → List (List α)
  | [] => []
  | x :: tl =>
    if h : b = 0 then []
    else ((x :: tl).take b) :: chunksOf b ((x :: tl).drop b)
termination_by l => l.length
decreasing_by
  have h1 : 0 < b := Nat.pos_of_ne_zero h
  simp only [List.length_drop, List.length_cons]
  omega

/-! ## Error recovery (src/utils/error-recovery.ts) -/

/-- The final error message after retries are exhausted. -/
def retryExhaustedMsg (maxRetries : Nat) (lastErr : String) : String :=
  "Operation failed after " ++ toString maxRetries ++ " retries: " ++ lastErr

/-- The retry loop of `executeWithRecovery`.  `op k` is the outcome of the
`(k+1)`-th invocation of the wrapped operation; `calls` counts invocations
so far; `fuel` is `maxRetries + 1 - calls`, the number of attempts the
`while (attempt <= maxRetries)` condition still allows.  Returns the
outcome together with the total number of invocations. -/
def recoveryGo (op : Nat → Except String Value) (maxRetries : Nat) :
    Nat → Nat → String → Except String Value × Nat
  | calls, 0, lastErr => (.error (retryExhaustedMsg maxRetries lastErr), calls)
  | calls, fuel + 1, _ =>
    match op calls with
    | .ok v => (.ok v, calls + 1)
    | .error e => recoveryGo op maxRetries (calls + 1) fuel e

/-- `executeWithRecovery(fn)`: with recovery disabled the operation runs
exactly once and its outcome is passed through; with recovery enabled the
operation is retried as long as the attempt counter stays within
`maxRetries`. -/
def executeWithRecovery (enabled : Bool) (maxRetries : Nat)
    (op : Nat → Except String Value) : Except String Value × Nat :=
  if enabled then recoveryGo op maxRetries 0 (maxRetries + 1) ""
  else (op 0, 1)

/-! ## Helper lemmas -/

theorem jsSliceIdx_natCast (len n : Nat) : jsSliceIdx len (n : Int) = min n len := by
  unfold jsSliceIdx
  rw [if_neg (by omega), Int.toNat_natCast]

theorem jsSlice_natCast {α : Type} (xs : List α) (i j : Nat) :
    jsSlice xs (i : Int) (j : Int) = (xs.drop i).take (j - i) := by
  unfold jsSlice
  rw [jsSliceIdx_natCast, jsSliceIdx_natCast, List.drop_take]
  rcases Nat.lt_or_ge i xs.length with hi | hi
  · rw [Nat.min_eq_left (Nat.le_of_lt hi)]
    rcases le_or_lt j xs.length with hj | hj
    · rw [Nat.min_eq_left hj]
    · rw [Nat.min_eq_right (Nat.le_of_lt hj)]
      rw [List.take_of_length_le (le_of_eq (List.length_drop ..)),
        List.take_of_length_le (by rw [List.length_drop]; omega)]
  · rw [Nat.min_eq_right hi, List.drop_eq_nil_of_le hi,
      List.drop_eq_nil_of_le (Nat.le_refl _)]
    simp

theorem enrichLoop_complete (data : List Value) (fn : Value → Value) (b : Nat)
    (hb : 1 ≤ b) :
    ∀ fuel i results, data.length - i ≤ fuel →
      enrichLoop data fn (b : Int) fuel (i : Int) results
        = some (results ++ (data.drop i).map fn) := by
  intro fuel
  induction fuel with
  | zero =>
    intro i results h
    have hi : data.length ≤ i := by omega
    simp only [enrichLoop]
    rw [if_neg (by exact_mod_cast Nat.not_lt.mpr hi), List.drop_eq_nil_of_le hi]
    simp
  | succ fuel ih =>
    intro i results h
    simp only [enrichLoop]
    rcases Nat.lt_or_ge i data.length with hi | hi
    · rw [if_pos (by exact_mod_cast hi)]
      have hcast : (i : Int) + (b : Int) = ((i + b : Nat) : Int) := by push_cast; ring
      rw [hcast, jsSlice_natCast, ih (i + b) _ (by omega)]
      have hdrop : data.drop (i + b) = (data.drop i).drop b := by
        rw [List.drop_drop]
      have hb2 : i + b - i = b := by omega
      rw [hdrop, hb2, List.append_assoc, ← List.map_append, List.take_append_drop]
    · rw [if_neg (by exact_mod_cast Nat.not_lt.mpr hi), List.drop_eq_nil_of_le hi]
      simp

theorem foldl_push_eq_map (fn : Value → Value) :
    ∀ (data acc : List Value),
      data.foldl (fun r x => r ++ [fn x]) acc = acc ++ data.map fn := by
  intro data
  induction data with
  | nil => intro acc; simp
  | cons x tl ih => intro acc; simp [ih]

theorem enrichSequential_eq_map (data : List Value) (fn : Value → Value) :
    enrichSequential data fn = data.map fn := by
  unfold enrichSequential
  rw [foldl_push_eq_map]
  simp

theorem chunksOf_nil {α : Type} (b : Nat) : chunksOf b ([] : List α) = [] := by
  simp [chunksOf]

theorem chunksOf_cons_eq {α : Type} (b : Nat) (hb : b ≠ 0) (l : List α)
    (hl : l ≠ []) : chunksOf b l = l.take b :: chunksOf b (l.drop b) := by
  cases l with
  | nil => exact absurd rfl hl
  | cons x tl => simp [chunksOf, hb]

/-- Contribution of one chunk to the stream output: the normalised
processor result on success, nothing on failure. -/
def chunkContribution (proc : List Value → Except String Value)
    (c : List Value) : List Value :=
  match proc c with
  | .ok r => normalizeResult r
  | .error _ => []

theorem streamLoop_complete (data : List Value)
    (proc : List Value → Except String Value) (b : Nat) (hb : 1 ≤ b) :
    ∀ fuel i results, data.length - i ≤ fuel →
      streamLoop data proc (b : Int) fuel (i : Int) results
        = some (results ++ ((chunksOf b (data.drop i)).map (chunkContribution proc)).join) := by
  intro fuel
  induction fuel with
  | zero =>
    intro i results h
    have hi : data.length ≤ i := by omega
    simp only [streamLoop]
    rw [if_neg (by exact_mod_cast Nat.not_lt.mpr hi), List.drop_eq_nil_of_le hi,
      chunksOf_nil]
    simp
  | succ fuel ih =>
    intro i results h
    simp only [streamLoop]
    rcases Nat.lt_or_ge i data.length with hi | hi
    · rw [if_pos (by exact_mod_cast hi)]
      have hcast : (i : Int) + (b : Int) = ((i + b : Nat) : Int) := by push_cast; ring
      have hb2 : i + b - i = b := by omega
      have hdrop : data.drop (i + b) = (data.drop i).drop b := by
        rw [List.drop_drop]
      have hne : data.drop i ≠ [] := by
        intro hc
        have := List.drop_eq_nil_iff_le.mp hc
        omega
      rw [hcast, jsSlice_natCast, hb2,
        chunksOf_cons_eq b (by omega) (data.drop i) hne]
      cases hpc : proc ((data.drop i).take b) with
      | ok r =>
        rw [ih (i + b) _ (by omega), hdrop]
        simp [chunkContribution, hpc]
      | error e =>
        rw [ih (i + b) _ (by omega), hdrop]
        simp [chunkContribution, hpc]
    · rw [if_neg (by exact_mod_cast Nat.not_lt.mpr hi), List.drop_eq_nil_of_le hi,
        chunksOf_nil]
      simp

theorem enrichLoop_nonterm (data : List Value) (fn : Value → Value) (bs : Int)
    (hbs : bs ≤ 0) (hd : data ≠ []) :
    ∀ fuel (i : Int), i ≤ 0 → ∀ results,
      enrichLoop data fn bs fuel i results = none := by
  have hlen : 1 ≤ data.length := List.length_pos.mpr hd
  have hlen2 : (1 : Int) ≤ (data.length : Int) := by exact_mod_cast hlen
  intro fuel
  induction fuel with
  | zero =>
    intro i hi results
    simp only [enrichLoop]
    rw [if_pos (by omega)]
  | succ fuel ih =>
    intro i hi results
    simp only [enrichLoop]
    rw [if_pos (by omega)]
    exact ih (i + bs) (by omega) _

theorem streamLoop_nonterm (data : List Value)
    (proc : List Value → Except String Value) (bs : Int)
    (hbs : bs ≤ 0) (hd : data ≠ []) :
    ∀ fuel (i : Int), i ≤ 0 → ∀ results,
      streamLoop data proc bs fuel i results = none := by
  have hlen : 1 ≤ data.length := List.length_pos.mpr hd
  have hlen2 : (1 : Int) ≤ (data.length : Int) := by exact_mod_cast hlen
  intro fuel
  induction fuel with
  | zero =>
    intro i hi results
    simp only [streamLoop]
    rw [if_pos (by omega)]
  | succ fuel ih =>
    intro i hi results
    simp only [streamLoop]
    rw [if_pos (by omega)]
    exact ih (i + bs) (by omega) _

theorem recoveryGo_count_le (op : Nat → Except String Value) (mr : Nat) :
    ∀ fuel calls lastErr, (recoveryGo op mr calls fuel lastErr).2 ≤ calls + fuel := by
  intro fuel
  induction fuel with
  | zero => intro calls lastErr; simp [recoveryGo]
  | succ fuel ih =>
    intro calls lastErr
    simp only [recoveryGo]
    cases op calls with
    | ok v =>
      show calls + 1 ≤ calls + (fuel + 1)
      omega
    | error e => exact le_trans (ih (calls + 1) e) (by omega)

theorem recoveryGo_first_success (op : Nat → Except String Value) (mr : Nat)
    (v : Value) :
    ∀ j calls fuel lastErr, j < fuel →
      (∀ i, i < j → ∃ e, op (calls + i) = .error e) →
      op (calls + j) = .ok v →
      recoveryGo op mr calls fuel lastErr = (.ok v, calls + j + 1) := by
  intro j
  induction j with
  | zero =>
    intro calls fuel lastErr hfuel _ hok
    cases fuel with
    | zero => omega
    | succ f =>
      simp only [recoveryGo]
      rw [show calls + 0 = calls from rfl] at hok
      rw [hok]
  | succ j ih =>
    intro calls fuel lastErr hfuel hfail hok
    cases fuel with
    | zero => omega
    | succ f =>
      obtain ⟨e, he⟩ := hfail 0 (by omega)
      rw [show calls + 0 = calls from rfl] at he
      simp only [recoveryGo, he]
      have hgoal := ih (calls + 1) f e (by omega)
        (by
          intro i hi
          obtain ⟨e2, he2⟩ := hfail (i + 1) (by omega)
          exact ⟨e2, by rw [show calls + 1 + i = calls + (i + 1) from by omega]; exact he2⟩)
        (by rw [show calls + 1 + j = calls + (j + 1) from by omega]; exact hok)
      have harith : calls + (j + 1) + 1 = calls + 1 + j + 1 := by omega
      rw [harith]
      exact hgoal

/-! ## Demonstration inputs used by the concrete parts of the claims -/

/-- The enrichment function `x => x * 2` of the specification example. -/
def demoDouble : Value → Value
  | .vNum n => .vNum (2 * n)
  | v => v

/-- Seven numbered items, the stream-processor example input. -/
def demoItems7 : List Value :=
  [.vNum 1, .vNum 2, .vNum 3, .vNum 4, .vNum 5, .vNum 6, .vNum 7]

/-- A chunk processor that doubles every item of a chunk but throws on the
chunk containing the value 4 (the middle chunk of `demoItems7` at batch
size 3). -/
def demoProc7 : List Value → Except String Value := fun c =>
  if c.any (fun vv => valueBeq vv (.vNum 4)) then .error "boom"
  else .ok (.vArr (ValueList.ofList (c.map demoDouble)))

/-- An operation that rejects on its first two invocations and resolves
with 42 on the third. -/
def demoOp : Nat → Except String Value := fun k =>
  if k < 2 then .error "boom" else .ok (.vNum 42)

/-! ## Claims -/

/-- C7: for every input array, enrichment function and batch size of at
least 1, parallel-batched enrichment produces exactly the sequence of
sequential enrichment, whose i-th element is the function applied to the
i-th input; in particular doubling `[1,2,3,4,5]` at batch size 2 yields
`[2,4,6,8,10]`. -/
theorem enrich_parallel_eq_sequential :
    (∀ (data : List Value) (fn : Value → Value) (b : Nat), 1 ≤ b →
      enrichParallel data fn (b : Int) = some (enrichSequential data fn) ∧
      enrichSequential data fn = data.map fn) ∧
    enrichParallel [.vNum 1, .vNum 2, .vNum 3, .vNum 4, .vNum 5] demoDouble 2
      = some [.vNum 2, .vNum 4, .vNum 6, .vNum 8, .vNum 10] := by
  constructor
  · intro data fn b hb
    constructor
    · unfold enrichParallel
      have h0 : (0 : Int) = ((0 : Nat) : Int) := by norm_num
      rw [h0, enrichLoop_complete data fn b hb data.length 0 [] (by omega)]
      rw [enrichSequential_eq_map]
      simp
    · exact enrichSequential_eq_map data fn
  · rfl

/-- Witness for the universally quantified part of
`enrich_parallel_eq_sequential` at the specification example. -/
theorem enrich_parallel_eq_sequential_witness :
    enrichParallel [.vNum 1, .vNum 2, .vNum 3, .vNum 4, .vNum 5] demoDouble ((2 : Nat) : Int)
      = some (enrichSequential [.vNum 1, .vNum 2, .vNum 3, .vNum 4, .vNum 5] demoDouble) :=
  (enrich_parallel_eq_sequential.1
    [.vNum 1, .vNum 2, .vNum 3, .vNum 4, .vNum 5] demoDouble 2 (by omega)).1

/-- C9: with recovery enabled the wrapped operation is invoked at most
`maxRetries + 1` times, and when the first success happens at attempt
`j + 1` with `j ≤ maxRetries`, its value is returned after exactly `j + 1`
invocations; in particular with `maxRetries = 2` and failures on the first
two attempts, the third attempt's value is returned after exactly 3
invocations. -/
theorem recovery_retries_and_first_success :
    (∀ (op : Nat → Except String Value) (mr : Nat),
      (executeWithRecovery true mr op).2 ≤ mr + 1) ∧
    (∀ (op : Nat → Except String Value) (mr j : Nat) (v : Value),
      j ≤ mr → (∀ i, i < j → ∃ e, op i = .error e) → op j = .ok v →
      executeWithRecovery true mr op = (.ok v, j + 1)) ∧
    executeWithRecovery true 2 demoOp = (.ok (.vNum 42), 3) := by
  refine ⟨?_, ?_, ?_⟩
  · intro op mr
    unfold executeWithRecovery
    simpa using recoveryGo_count_le op mr (mr + 1) 0 ""
  · intro op mr j v hj hfail hok
    unfold executeWithRecovery
    simpa using recoveryGo_first_success op mr v j 0 (mr + 1) "" (by omega)
      (by simpa using hfail) (by simpa using hok)
  · rfl

/-- Witness for `recovery_retries_and_first_success` at the concrete
operation failing twice then succeeding. -/
theorem recovery_retries_witness :
    executeWithRecovery true 2 demoOp = (.ok (.vNum 42), 3) := by
  have h := recovery_retries_and_first_success.2.1 demoOp 2 2 (.vNum 42)
    (by omega)
    (by
      intro i hi
      refine ⟨"boom", ?_⟩
      unfold demoOp
      rw [if_pos hi])
    (by rfl)
  exact h

/-- C10: the chunking loops of parallel enrichment and the stream
processor terminate (fuel `data.length` suffices) for every batch size of
at least 1, and for a batch size of at most 0 on a non-empty input the
loop condition never becomes false, so no amount of fuel makes either
loop return. -/
theorem batch_size_termination :
    (∀ (data : List Value) (fn : Value → Value) (b : Nat), 1 ≤ b →
      (enrichLoop data fn (b : Int) data.length 0 []).isSome = true) ∧
    (∀ (data : List Value) (proc : List Value → Except String Value) (b : Nat),
      1 ≤ b → (streamLoop data proc (b : Int) data.length 0 []).isSome = true) ∧
    (∀ (data : List Value) (fn : Value → Value) (bs : Int), bs ≤ 0 → data ≠ [] →
      ∀ fuel, enrichLoop data fn bs fuel 0 [] = none) ∧
    (∀ (data : List Value) (proc : List Value → Except String Value) (bs : Int),
      bs ≤ 0 → data ≠ [] → ∀ fuel, streamLoop data proc bs fuel 0 [] = none) := by
  refine ⟨?_, ?_, ?_, ?_⟩
  · intro data fn b hb
    have h0 : (0 : Int) = ((0 : Nat) : Int) := by norm_num
    rw [h0, enrichLoop_complete data fn b hb data.length 0 [] (by omega)]
    rfl
  · intro data proc b hb
    have h0 : (0 : Int) = ((0 : Nat) : Int) := by norm_num
    rw [h0, streamLoop_complete data proc b hb data.length 0 [] (by omega)]
    rfl
  · intro data fn bs hbs hd fuel
    exact enrichLoop_nonterm data fn bs hbs hd fuel 0 (by omega) []
  · intro data proc bs hbs hd fuel
    exact streamLoop_nonterm data proc bs hbs hd fuel 0 (by omega) []

/-- Witness for `batch_size_termination`: on one item, batch size 1
terminates while batch size 0 exhausts any fuel. -/
theorem batch_size_termination_witness :
    (enrichLoop [.vNum 1] demoDouble ((1 : Nat) : Int) [Value.vNum 1].length 0 []).isSome = true ∧
    enrichLoop [.vNum 1] demoDouble 0 7 0 [] = none ∧
    streamLoop [.vNum 1] demoProc7 0 7 0 [] = none :=
  ⟨batch_size_termination.1 [.vNum 1] demoDouble 1 (by omega),
   batch_size_termination.2.2.1 [.vNum 1] demoDouble 0 (by omega) (by simp) 7,
   batch_size_termination.2.2.2 [.vNum 1] demoProc7 0 (by omega) (by simp) 7⟩

/-- C8: with streaming enabled and a batch size of at least 1, the stream
processor partitions the input into consecutive chunks of the batch size
(last chunk possibly smaller), never fails, and returns the concatenation
in chunk order of the normalised results of exactly the successful chunks;
in particular 7 items at batch size 3 are chunked `[3,3,1]` and a failing
middle chunk is omitted. -/
theorem stream_process_skips_failed_chunks :
    (∀ (data : List Value) (proc : List Value → Except String Value) (b : Nat),
      1 ≤ b →
      streamProcess data proc (b : Int)
        = some (((chunksOf b data).map (chunkContribution proc)).join)) ∧
    (chunksOf 3 demoItems7).map List.length = [3, 3, 1] ∧
    streamProcess demoItems7 demoProc7 3
      = some [.vNum 2, .vNum 4, .vNum 6, .vNum 14] := by
  refine ⟨?_, ?_, ?_⟩
  · intro data proc b hb
    unfold streamProcess
    have h0 : (0 : Int) = ((0 : Nat) : Int) := by norm_num
    rw [h0, streamLoop_complete data proc b hb data.length 0 [] (by omega)]
    simp
  · simp [chunksOf, demoItems7]
  · rfl

/-- Witness for `stream_process_skips_failed_chunks` at the 7-item
example. -/
theorem stream_process_skips_failed_chunks_witness :
    streamProcess demoItems7 demoProc7 ((3 : Nat) : Int)
      = some (((chunksOf 3 demoItems7).map (chunkContribution demoProc7)).join) :=
  stream_process_skips_failed_chunks.1 demoItems7 demoProc7 3 (by omega)

/-! ## Join lemmas and claims -/

theorem nestedJoinList_length (left right : List Value) (key : String)
    (fn : Option JoinFn) :
    (nestedJoinList left right key fn).length = left.length := by
  simp [nestedJoinList]

theorem nestedJoinList_emit_unfound (left right : List Value) (key : String)
    (i : Nat) (l : Value) (hget : left[i]? = some l)
    (hnot : ∀ kv, getNestedValue l key = some kv →
      getVAssoc (buildJoinMap right key) kv = none) :
    (nestedJoinList left right key none)[i]? = some l := by
  simp only [nestedJoinList]
  rw [List.getElem?_map, hget]
  cases hk : getNestedValue l key with
  | none => simp [hk]
  | some kv => simp [hk, hnot kv hk]

theorem buildJoinMap_filter (items : List Value) (key : String) :
    buildJoinMap items key
      = buildJoinMap (items.filter (fun it => (getNestedValue it key).isSome)) key := by
  unfold buildJoinMap
  generalize ([] : List (Value × Value)) = acc
  induction items generalizing acc with
  | nil => simp
  | cons x tl ih =>
    cases hk : getNestedValue x key with
    | none =>
      rw [List.filter_cons_of_neg (by simp [hk])]
      simp only [List.foldl_cons, hk]
      exact ih acc
    | some kv =>
      rw [List.filter_cons_of_pos (by simp [hk])]
      simp only [List.foldl_cons, hk]
      exact ih (setVAssoc acc kv x)

/-- Record `{id:1, a:1}` of the specification join example. -/
def demoRec1 : Value := .vObj (.cons "id" (.vNum 1) (.cons "a" (.vNum 1) .nil))

/-- Record `{id:2, a:2}` of the specification join example. -/
def demoRec2 : Value := .vObj (.cons "id" (.vNum 2) (.cons "a" (.vNum 2) .nil))

/-- Record `{id:1, b:9}` of the specification join example. -/
def demoRecR : Value := .vObj (.cons "id" (.vNum 1) (.cons "b" (.vNum 9) .nil))

/-- The merged record `{id:1, a:1, b:9}`. -/
def demoMerged : Value :=
  .vObj (.cons "id" (.vNum 1) (.cons "a" (.vNum 1) (.cons "b" (.vNum 9) .nil)))

/-- A record `{a:1}` with no `id` field: its key path does not resolve. -/
def demoNoKey : Value := .vObj (.cons "a" (.vNum 1) .nil)

/-- C5: in nested join mode the output has exactly the left input's
cardinality, a left record whose key value is not found in the right-side
index is emitted unchanged at its position, and the specification example
`left=[{id:1,a:1},{id:2,a:2}]`, `right=[{id:1,b:9}]`, key `id` yields
`[{id:1,a:1,b:9},{id:2,a:2}]`. -/
theorem nested_join_left_preserving :
    (∀ (left right : List Value) (key : String),
      (nestedJoinList left right key none).length = left.length) ∧
    (∀ (left right : List Value) (key : String) (i : Nat) (l : Value),
      left[i]? = some l →
      (∀ kv, getNestedValue l key = some kv →
        getVAssoc (buildJoinMap right key) kv = none) →
      (nestedJoinList left right key none)[i]? = some l) ∧
    nestedJoinList [demoRec1, demoRec2] [demoRecR] "id" none
      = [demoMerged, demoRec2] := by
  refine ⟨?_, ?_, ?_⟩
  · intro left right key
    exact nestedJoinList_length left right key none
  · intro left right key i l hget hnot
    exact nestedJoinList_emit_unfound left right key i l hget hnot
  · rfl

/-- Witness for `nested_join_left_preserving`: the record `{id:2,a:2}`
whose key value 2 is absent from the right index passes through
unchanged. -/
theorem nested_join_left_preserving_witness :
    (nestedJoinList [demoRec2] [demoRecR] "id" none)[0]? = some demoRec2 :=
  nested_join_left_preserving.2.1 [demoRec2] [demoRecR] "id" 0 demoRec2 rfl
    (by
      intro kv h
      rw [show getNestedValue demoRec2 "id" = some (.vNum 2) from rfl] at h
      cases h
      rfl)

/-- C6 as stated is false at a concrete input: in parallel mode the record
`{a:1}` has an unresolved `id` path and the join output is empty, so the
record does not contribute to the output. -/
theorem parallel_join_drops_unresolved_counterexample :
    getNestedValue demoNoKey "id" = none ∧
    parallelJoinList [demoNoKey] [] "id" none = [] :=
  ⟨rfl, rfl⟩

/-- C6 amended: a record whose key path does not resolve is excluded from
the join index on both sides and in both modes; in nested mode an
unresolved-key left record is still emitted unchanged; in parallel mode
the output is built from the indexes alone, so unresolved-key records are
dropped from the output (filtering them away changes nothing). -/
theorem join_unresolved_key_handling :
    (∀ (items : List Value) (key : String),
      buildJoinMap items key
        = buildJoinMap (items.filter (fun it => (getNestedValue it key).isSome)) key) ∧
    (∀ (left right : List Value) (key : String) (i : Nat) (l : Value),
      left[i]? = some l → getNestedValue l key = none →
      (nestedJoinList left right key none)[i]? = some l) ∧
    (∀ (left right : List Value) (key : String) (fn : Option JoinFn),
      parallelJoinList left right key fn
        = parallelJoinList (left.filter (fun it => (getNestedValue it key).isSome))
            (right.filter (fun it => (getNestedValue it key).isSome)) key fn) := by
  refine ⟨?_, ?_, ?_⟩
  · intro items key
    exact buildJoinMap_filter items key
  · intro left right key i l hget hnone
    exact nestedJoinList_emit_unfound left right key i l hget
      (by intro kv hkv; rw [hnone] at hkv; cases hkv)
  · intro left right key fn
    simp only [parallelJoinList]
    rw [buildJoinMap_filter left key, buildJoinMap_filter right key]

/-- Witness for `join_unresolved_key_handling`: the unresolved-key record
`{a:1}` is emitted unchanged by the nested join, and filtering it away
leaves the parallel join output unchanged. -/
theorem join_unresolved_key_handling_witness :
    (nestedJoinList [demoNoKey] [demoRecR] "id" none)[0]? = some demoNoKey ∧
    parallelJoinList [demoNoKey] [demoRecR] "id" none
      = parallelJoinList ([demoNoKey].filter (fun it => (getNestedValue it "id").isSome))
          ([demoRecR].filter (fun it => (getNestedValue it "id").isSome)) "id" none :=
  ⟨join_unresolved_key_handling.2.1 [demoNoKey] [demoRecR] "id" 0 demoNoKey rfl rfl,
   join_unresolved_key_handling.2.2 [demoNoKey] [demoRecR] "id" none⟩

/-! ## Pipeline lemmas and claims -/

theorem runSteps_append_ok (env : Env) (cfg : ETLConfig) (now : Nat)
    (xs ys : List ETLStep) :
    ∀ (acc acc2 : RunAcc), runSteps env cfg now xs acc = (acc2, none) →
      runSteps env cfg now (xs ++ ys) acc = runSteps env cfg now ys acc2 := by
  induction xs with
  | nil =>
    intro acc acc2 h
    simp only [runSteps] at h
    cases h
    simp
  | cons s tl ih =>
    intro acc acc2 h
    cases hr : (executeStep env cfg now s acc.currentData acc.cacheSt).1 with
    | ok newData =>
      simp only [List.cons_append, runSteps, hr] at h ⊢
      exact ih _ _ h
    | error e =>
      by_cases ho : s.optional = true
      · simp only [List.cons_append, runSteps, hr, ho, if_true] at h ⊢
        exact ih _ _ h
      · simp [List.cons_append, runSteps, hr, ho] at h

theorem runSteps_counters (env : Env) (cfg : ETLConfig) (now : Nat) :
    ∀ (steps : List ETLStep) (acc : RunAcc),
      (runSteps env cfg now steps acc).1.cacheHits = acc.cacheHits ∧
      (runSteps env cfg now steps acc).1.cacheMisses = acc.cacheMisses := by
  intro steps
  induction steps with
  | nil => intro acc; simp [runSteps]
  | cons s tl ih =>
    intro acc
    cases hr : (executeStep env cfg now s acc.currentData acc.cacheSt).1 with
    | ok newData =>
      simp only [runSteps, hr]
      exact ih _
    | error e =>
      by_cases ho : s.optional = true
      · simp only [runSteps, hr, ho, if_true]
        exact ih _
      · simp only [runSteps, hr, ho, if_false]
        exact ⟨rfl, rfl⟩

/-- The `not found` error message thrown when a step's capability name is
not registered in the matching registry. -/
def notFoundMsg (s : ETLStep) : String :=
  match s.type with
  | .extract => "Extractor " ++ s.name ++ " not found"
  | .transform => "Transformer " ++ s.name ++ " not found"
  | .load => "Loader " ++ s.name ++ " not found"

/-- Whether a step's capability name is absent from the matching
registry. -/
def stepRegistryMissing (env : Env) (s : ETLStep) : Bool :=
  match s.type with
  | .extract => (lookupStr env.extractors s.name).isNone
  | .transform => (lookupStr env.transformers s.name).isNone
  | .load => (lookupStr env.loaders s.name).isNone

theorem executeStep_missing (env : Env) (cfg : ETLConfig) (now : Nat)
    (s : ETLStep) (cur : Value) (st : CacheState)
    (h : stepRegistryMissing env s = true) :
    executeStep env cfg now s cur st = (.error (notFoundMsg s), st, []) := by
  cases hts : s.type with
  | extract =>
    simp only [stepRegistryMissing, hts, Option.isNone_iff_eq_none] at h
    simp [executeStep, executeExtractStep, hts, h, notFoundMsg]
  | transform =>
    simp only [stepRegistryMissing, hts, Option.isNone_iff_eq_none] at h
    simp [executeStep, hts, h, notFoundMsg]
  | load =>
    simp only [stepRegistryMissing, hts, Option.isNone_iff_eq_none] at h
    simp [executeStep, hts, h, notFoundMsg]

theorem runP_fatal (env : Env) (cfg : ETLConfig) (now : Nat) (st0 : CacheState)
    (pre post : List ETLStep) (s : ETLStep) (acc : RunAcc) (e : String)
    (hpre : runSteps env cfg now pre ⟨.vNull, st0, [], 0, 0, []⟩ = (acc, none))
    (hopt : s.optional = false)
    (hfail : (executeStep env cfg now s acc.currentData acc.cacheSt).1 = .error e) :
    (runP env cfg now (pre ++ s :: post) st0).1.success = false ∧
    (runP env cfg now (pre ++ s :: post) st0).1.error = some e ∧
    (runP env cfg now (pre ++ s :: post) st0).1.data = acc.currentData ∧
    (runP env cfg now (pre ++ s :: post) st0).1.steps
      = acc.stepResults ++ [⟨s.name, false, some e⟩] ∧
    runP env cfg now (pre ++ s :: post) st0 = runP env cfg now (pre ++ [s]) st0 := by
  have hstep : ∀ (post2 : List ETLStep),
      runSteps env cfg now (s :: post2) acc
        = (⟨acc.currentData, (executeStep env cfg now s acc.currentData acc.cacheSt).2.1,
            acc.stepResults ++ [⟨s.name, false, some e⟩], acc.cacheHits, acc.cacheMisses,
            acc.events ++ (executeStep env cfg now s acc.currentData acc.cacheSt).2.2⟩,
           some e) := by
    intro post2
    simp [runSteps, hfail, hopt]
  have hall : ∀ (post2 : List ETLStep),
      runSteps env cfg now (pre ++ s :: post2) ⟨.vNull, st0, [], 0, 0, []⟩
        = (⟨acc.currentData, (executeStep env cfg now s acc.currentData acc.cacheSt).2.1,
            acc.stepResults ++ [⟨s.name, false, some e⟩], acc.cacheHits, acc.cacheMisses,
            acc.events ++ (executeStep env cfg now s acc.currentData acc.cacheSt).2.2⟩,
           some e) := by
    intro post2
    rw [runSteps_append_ok env cfg now pre (s :: post2) _ acc hpre]
    exact hstep post2
  refine ⟨?_, ?_, ?_, ?_, ?_⟩ <;> simp [runP, hall post, hall []]

/-- C3: when a non-optional step fails after a prefix that produced no
fatal error, `run()` reports `success = false` with that error attached,
`data` is the carried value from before the failed step, the per-step
entries end at the failed step, and the steps after the failure never
execute (the result does not depend on them). -/
theorem run_stops_on_nonoptional_failure :
    ∀ (env : Env) (cfg : ETLConfig) (now : Nat) (st0 : CacheState)
      (pre post : List ETLStep) (s : ETLStep) (acc : RunAcc) (e : String),
      runSteps env cfg now pre ⟨.vNull, st0, [], 0, 0, []⟩ = (acc, none) →
      s.optional = false →
      (executeStep env cfg now s acc.currentData acc.cacheSt).1 = .error e →
      (runP env cfg now (pre ++ s :: post) st0).1.success = false ∧
      (runP env cfg now (pre ++ s :: post) st0).1.error = some e ∧
      (runP env cfg now (pre ++ s :: post) st0).1.data = acc.currentData ∧
      (runP env cfg now (pre ++ s :: post) st0).1.steps
        = acc.stepResults ++ [⟨s.name, false, some e⟩] ∧
      runP env cfg now (pre ++ s :: post) st0 = runP env cfg now (pre ++ [s]) st0 := by
  intro env cfg now st0 pre post s acc e hpre hopt hfail
  exact runP_fatal env cfg now st0 pre post s acc e hpre hopt hfail

/-- A failing (always-rejecting) extractor, for the concrete witnesses. -/
def demoFailEnv : Env :=
  ⟨[("bad", fun _ => .error "boom")], [], [("log", fun _ _ => .ok .vNull)]⟩

/-- Witness for `run_stops_on_nonoptional_failure`: a pipeline whose first
step's extractor rejects stops before its load step. -/
theorem run_stops_on_nonoptional_failure_witness :
    (runP demoFailEnv {} 0
        ([] ++ (⟨.extract, .vNull, "bad", false⟩ : ETLStep)
          :: [⟨.load, .vNull, "log", false⟩]) emptyCache).1.success = false ∧
    (runP demoFailEnv {} 0
        ([] ++ (⟨.extract, .vNull, "bad", false⟩ : ETLStep)
          :: [⟨.load, .vNull, "log", false⟩]) emptyCache).1.error = some "boom" ∧
    (runP demoFailEnv {} 0
        ([] ++ (⟨.extract, .vNull, "bad", false⟩ : ETLStep)
          :: [⟨.load, .vNull, "log", false⟩]) emptyCache).1.data = Value.vNull ∧
    (runP demoFailEnv {} 0
        ([] ++ (⟨.extract, .vNull, "bad", false⟩ : ETLStep)
          :: [⟨.load, .vNull, "log", false⟩]) emptyCache).1.steps
      = [] ++ [⟨"bad", false, some "boom"⟩] ∧
    runP demoFailEnv {} 0
        ([] ++ (⟨.extract, .vNull, "bad", false⟩ : ETLStep)
          :: [⟨.load, .vNull, "log", false⟩]) emptyCache
      = runP demoFailEnv {} 0
          ([] ++ [(⟨.extract, .vNull, "bad", false⟩ : ETLStep)]) emptyCache :=
  run_stops_on_nonoptional_failure demoFailEnv {} 0 emptyCache []
    [⟨.load, .vNull, "log", false⟩] ⟨.extract, .vNull, "bad", false⟩
    ⟨.vNull, emptyCache, [], 0, 0, []⟩ "boom" rfl rfl rfl

/-- C4 as stated is false at a concrete input: an optional extract step
naming the unregistered extractor `nope` does not stop the run; the
following load step still executes and the run reports `success = true`. -/
theorem optional_not_found_not_fatal_counterexample :
    (runP ⟨[], [], [("log", fun _ _ => .ok .vNull)]⟩ {} 0
        [⟨.extract, .vNull, "nope", true⟩, ⟨.load, .vNull, "log", false⟩]
        emptyCache).1.success = true ∧
    (runP ⟨[], [], [("log", fun _ _ => .ok .vNull)]⟩ {} 0
        [⟨.extract, .vNull, "nope", true⟩, ⟨.load, .vNull, "log", false⟩]
        emptyCache).1.steps
      = [⟨"nope", false, some "Extractor nope not found"⟩, ⟨"log", true, none⟩] :=
  ⟨rfl, rfl⟩

/-- C4 amended: a step whose capability name is missing from the matching
registry throws the not-found error, which is fatal (run stops,
`success = false`) exactly when the step is not optional; an optional
step's not-found failure is recorded in its per-step entry and execution
continues. -/
theorem step_not_found_fatal_unless_optional :
    (∀ (env : Env) (cfg : ETLConfig) (now : Nat) (st0 : CacheState)
       (pre post : List ETLStep) (s : ETLStep) (acc : RunAcc),
      runSteps env cfg now pre ⟨.vNull, st0, [], 0, 0, []⟩ = (acc, none) →
      s.optional = false →
      stepRegistryMissing env s = true →
      (runP env cfg now (pre ++ s :: post) st0).1.success = false ∧
      (runP env cfg now (pre ++ s :: post) st0).1.error = some (notFoundMsg s) ∧
      runP env cfg now (pre ++ s :: post) st0 = runP env cfg now (pre ++ [s]) st0) ∧
    (∀ (env : Env) (cfg : ETLConfig) (now : Nat) (s : ETLStep)
       (rest : List ETLStep) (acc : RunAcc),
      s.optional = true →
      stepRegistryMissing env s = true →
      runSteps env cfg now (s :: rest) acc
        = runSteps env cfg now rest
            ⟨acc.currentData, acc.cacheSt,
             acc.stepResults ++ [⟨s.name, false, some (notFoundMsg s)⟩],
             acc.cacheHits, acc.cacheMisses, acc.events⟩) := by
  constructor
  · intro env cfg now st0 pre post s acc hpre hopt hmiss
    have hexec := executeStep_missing env cfg now s acc.currentData acc.cacheSt hmiss
    have hfail : (executeStep env cfg now s acc.currentData acc.cacheSt).1
        = .error (notFoundMsg s) := by rw [hexec]
    obtain ⟨h1, h2, _, _, h5⟩ :=
      runP_fatal env cfg now st0 pre post s acc (notFoundMsg s) hpre hopt hfail
    exact ⟨h1, h2, h5⟩
  · intro env cfg now s rest acc hopt hmiss
    have hexec := executeStep_missing env cfg now s acc.currentData acc.cacheSt hmiss
    simp [runSteps, hexec, hopt]

/-- Witness for `step_not_found_fatal_unless_optional`: a single
non-optional step naming an unregistered extractor fails the run, and an
optional one is recorded and skipped. -/
theorem step_not_found_fatal_unless_optional_witness :
    (runP ⟨[], [], []⟩ {} 0
        ([] ++ (⟨.extract, .vNull, "nope", false⟩ : ETLStep) :: []) emptyCache).1.success
      = false ∧
    runSteps ⟨[], [], []⟩ {} 0 [⟨.extract, .vNull, "nope", true⟩]
        ⟨.vNull, emptyCache, [], 0, 0, []⟩
      = runSteps ⟨[], [], []⟩ {} 0 []
          ⟨.vNull, emptyCache,
           [⟨"nope", false, some (notFoundMsg ⟨.extract, .vNull, "nope", true⟩)⟩],
           0, 0, []⟩ :=
  ⟨(step_not_found_fatal_unless_optional.1 ⟨[], [], []⟩ {} 0 emptyCache [] []
      ⟨.extract, .vNull, "nope", false⟩ ⟨.vNull, emptyCache, [], 0, 0, []⟩
      rfl rfl rfl).1,
   step_not_found_fatal_unless_optional.2 ⟨[], [], []⟩ {} 0
     ⟨.extract, .vNull, "nope", true⟩ [] ⟨.vNull, emptyCache, [], 0, 0, []⟩ rfl rfl⟩

/-- A single extract step named `e` with `null` config, used by the
concrete cache scenarios. -/
def demoExtractStep : ETLStep := ⟨.extract, .vNull, "e", false⟩

/-- An extractor returning the truthy value 1. -/
def demoOneEnv : Env := ⟨[("e", fun _ => .ok (.vNum 1))], [], []⟩

/-- An extractor returning the falsy value 0. -/
def demoZeroEnv : Env := ⟨[("e", fun _ => .ok (.vNum 0))], [], []⟩

/-- C1 as stated is false at a concrete input: the first run (at instant
1) stores the falsy value 0 under the step's cache key with the nonzero
timestamp 1, and a second run 9 ms later (far within the default
5-minute TTL) still invokes the extractor again, because `getCachedData`
returns `cache.get(key) || null`. -/
theorem second_run_falsy_counterexample :
    lookupStr (runP demoZeroEnv {} 1 [demoExtractStep] emptyCache).2.1.cache
        (generateCacheKey demoExtractStep) = some (.vNum 0) ∧
    lookupStr (runP demoZeroEnv {} 1 [demoExtractStep] emptyCache).2.1.timestamps
        (generateCacheKey demoExtractStep) = some 1 ∧
    (runP demoZeroEnv {} 10 [demoExtractStep]
        (runP demoZeroEnv {} 1 [demoExtractStep] emptyCache).2.1).2.2
      = [.extractCall "e"] :=
  ⟨rfl, rfl, rfl⟩

/-- C1 amended: with caching enabled, when a prior run at a nonzero
instant stored a truthy value for the step's cache key and the TTL has
not elapsed, a second `run()` of the step yields the cached value,
succeeds, and records only a cache hit — the extractor is not invoked
again.  (A falsy stored value is never served from the cache, see the
counterexample; a store at instant 0 leaves the falsy timestamp 0, which
`getCachedData` also treats as a miss.) -/
theorem second_run_cache_hit_truthy (env : Env) (cfg : ETLConfig)
    (name : String) (config v : Value) (ex : Value → Except String Value)
    (t0 t1 : Nat)
    (hc : cfg.enableCache = true)
    (hex : lookupStr env.extractors name = some ex)
    (hexv : ex config = .ok v)
    (htruthy : truthy v = true)
    (ht0 : 1 ≤ t0)
    (httl : t1 - t0 ≤ cfg.cacheDuration) :
    (runP env cfg t1 [⟨.extract, config, name, false⟩]
        (runP env cfg t0 [⟨.extract, config, name, false⟩] emptyCache).2.1).1.data
      = v ∧
    (runP env cfg t1 [⟨.extract, config, name, false⟩]
        (runP env cfg t0 [⟨.extract, config, name, false⟩] emptyCache).2.1).1.success
      = true ∧
    (runP env cfg t1 [⟨.extract, config, name, false⟩]
        (runP env cfg t0 [⟨.extract, config, name, false⟩] emptyCache).2.1).2.2
      = [.cacheHit (generateCacheKey ⟨.extract, config, name, false⟩)] := by
  have hnexp : ¬(t1 - t0 > cfg.cacheDuration) := by omega
  have ht0ne : ¬(t0 = 0) := by omega
  have h1 : executeExtractStep env cfg t0 ⟨.extract, config, name, false⟩ emptyCache
      = (.ok v,
         ⟨[(generateCacheKey ⟨.extract, config, name, false⟩, v)],
          [(generateCacheKey ⟨.extract, config, name, false⟩, t0)]⟩,
         [.extractCall name]) := by
    simp [executeExtractStep, hex, hc, getCachedData, emptyCache, lookupStr, hexv,
      setCachedData, setStr]
  have hrun1 : (runP env cfg t0 [⟨.extract, config, name, false⟩] emptyCache).2.1
      = ⟨[(generateCacheKey ⟨.extract, config, name, false⟩, v)],
         [(generateCacheKey ⟨.extract, config, name, false⟩, t0)]⟩ := by
    simp [runP, runSteps, executeStep, h1]
  have h2 : executeExtractStep env cfg t1 ⟨.extract, config, name, false⟩
      ⟨[(generateCacheKey ⟨.extract, config, name, false⟩, v)],
       [(generateCacheKey ⟨.extract, config, name, false⟩, t0)]⟩
      = (.ok v,
         ⟨[(generateCacheKey ⟨.extract, config, name, false⟩, v)],
          [(generateCacheKey ⟨.extract, config, name, false⟩, t0)]⟩,
         [.cacheHit (generateCacheKey ⟨.extract, config, name, false⟩)]) := by
    simp [executeExtractStep, hex, hc, getCachedData, lookupStr, ht0ne, hnexp,
      htruthy]
  rw [hrun1]
  refine ⟨?_, ?_, ?_⟩ <;> simp [runP, runSteps, executeStep, h2]

/-- Witness for `second_run_cache_hit_truthy`: extractor `e` returns the
truthy value 1 at time 1; a second run at time 10 is answered from the
cache. -/
theorem second_run_cache_hit_truthy_witness :
    (runP demoOneEnv {} 10 [⟨.extract, .vNull, "e", false⟩]
        (runP demoOneEnv {} 1 [⟨.extract, .vNull, "e", false⟩] emptyCache).2.1).1.data
      = Value.vNum 1 ∧
    (runP demoOneEnv {} 10 [⟨.extract, .vNull, "e", false⟩]
        (runP demoOneEnv {} 1 [⟨.extract, .vNull, "e", false⟩] emptyCache).2.1).1.success
      = true ∧
    (runP demoOneEnv {} 10 [⟨.extract, .vNull, "e", false⟩]
        (runP demoOneEnv {} 1 [⟨.extract, .vNull, "e", false⟩] emptyCache).2.1).2.2
      = [.cacheHit (generateCacheKey ⟨.extract, .vNull, "e", false⟩)] :=
  second_run_cache_hit_truthy demoOneEnv {} "e" .vNull (.vNum 1)
    (fun _ => .ok (.vNum 1)) 1 10 rfl rfl rfl rfl (by omega) (by decide)

/-- C2: the counters `cacheHits` and `cacheMisses` declared at the top of
`run()` are never incremented, so the returned metadata always reports
both as 0 — even in a run whose extract step is in fact answered from the
cache (second conjunct: the hit event is recorded, the reported count is
still 0). -/
theorem cache_counters_never_incremented :
    (∀ (env : Env) (cfg : ETLConfig) (now : Nat) (steps : List ETLStep)
       (st0 : CacheState),
      (runP env cfg now steps st0).1.cacheHits = 0 ∧
      (runP env cfg now steps st0).1.cacheMisses = 0) ∧
    ((runP demoOneEnv {} 10 [demoExtractStep]
        (runP demoOneEnv {} 1 [demoExtractStep] emptyCache).2.1).2.2
      = [.cacheHit (generateCacheKey demoExtractStep)] ∧
     (runP demoOneEnv {} 10 [demoExtractStep]
        (runP demoOneEnv {} 1 [demoExtractStep] emptyCache).2.1).1.cacheHits = 0) := by
  constructor
  · intro env cfg now steps st0
    have h := runSteps_counters env cfg now steps ⟨.vNull, st0, [], 0, 0, []⟩
    rcases hr : runSteps env cfg now steps ⟨.vNull, st0, [], 0, 0, []⟩ with ⟨acc, err⟩
    rw [hr] at h
    cases err with
    | none => simpa [runP, hr] using h
    | some e => simpa [runP, hr] using h
  · exact ⟨rfl, rfl⟩
